import Mathlib

/-!
Shallow embedding of the rbt job-fingerprinting core (`src/job.rs`) and the
CLI runtime configuration (`src/cli.rs`).

Modelling decisions, each traceable to the source:

* Paths. `PathBuf` equality, hashing and `components()` are component-based.
  We model a path as its parsed list of components, Unix-style, mirroring
  Rust's `Path::components` normalisation: repeated separators and interior
  `.` components are dropped, a leading `/` becomes `RootDir`, a leading `.`
  (alone or followed by `/`) is kept as `CurDir`, and `..` becomes
  `ParentDir`. Windows `Prefix` components do not arise in this Unix model;
  the source treats `Prefix` exactly like `RootDir` (both bail with the
  absolute-path error), so nothing is lost.

* Hashing. `from_glue` feeds `DefaultHasher` (SipHash): first the whole
  `command` value (derived structural `Hash`), then, per sorted input-file
  string, the looked-up content-hash string, then each sorted, deduplicated
  output path. We model the hasher as the transcript of fed values: an
  identity is the list of hash tokens, and `finish` is the identity function
  on transcripts. Distinct transcripts give distinct identities; this is the
  collision-free idealisation of the spec's "collision-resistant identity",
  and equal transcripts give equal hashes exactly as in the code.

* Collections. Roc's `RocList` is a plain list; `iter().sorted()` over
  `RocStr` is sorting by the total lexicographic string order, modelled with
  `List.insertionSort strLe` over a kernel-computable comparison (any stable
  total sort computes the same list). `HashMap<PathBuf, String>` is a function from parsed paths to
  `Option String`; `HashSet<PathBuf>` is a duplicate-free list built by
  `insertSet` (only membership and set equality of these are ever used).

* `glue::Job` wraps its payload in `f0`, and `command` is a one-field struct
  whose derived `Hash` hashes that single field; both wrappers are flattened
  away here, which preserves the equality/hash structure.
-/

namespace Rbt

/-- A path component, after Rust's `Path::components` normalisation. -/
inductive Component where
  | rootDir : Component
  | curDir : Component
  | parentDir : Component
  | normal : String → Component
deriving DecidableEq

/-- Split a character list on `/`, keeping empty pieces. Mirrors the
separator splitting underlying `Path::components`. -/
def splitSlash : List Char → List Char → List String
  | [], acc => [String.mk acc.reverse]
  | c :: rest, acc =>
    if c = '/' then String.mk acc.reverse :: splitSlash rest []
    else splitSlash rest (c :: acc)

/-- Parse a path string into its components, as `PathBuf::from(s).components()`
would produce on Unix. -/
def parsePath (s : String) : List Component :=
  let parts := (splitSlash s.data []).filter (fun p => !(p == "" || p == "."))
  let comps := parts.map
    (fun p => if p == ".." then Component.parentDir else Component.normal p)
  if s.data.head? = some '/' then Component.rootDir :: comps
  else if s = "." ∨ s.data.take 2 = ['.', '/'] then Component.curDir :: comps
  else comps

/-- The command record fed to the hasher: tool plus ordered argument list
(`glue::R3`, hashed structurally at src/job.rs:38). -/
structure R3 where
  tool : String
  args : List String
deriving DecidableEq

/-- One value fed to `DefaultHasher` during `Job::from_glue`. -/
inductive HashToken where
  | command : R3 → HashToken
  | inputHash : String → HashToken
  | output : List Component → HashToken
deriving DecidableEq

/-- A job identity: the transcript of hashed values (`Id(hasher.finish())`),
in the collision-free hasher model. -/
structure Id where
  tokens : List HashToken
deriving DecidableEq

/-- The glue-side job description (`glue::Job`, unwrapped). -/
structure GlueJob where
  command : R3
  inputFiles : List String
  outputs : List String
deriving DecidableEq

/-- The constructed job (`Job` in src/job.rs). -/
structure Job where
  id : Id
  command : R3
  input_files : List (List Component)
  outputs : List (List Component)
deriving DecidableEq

/-- Model of `HashSet::insert`: add a path if it is not already present. -/
def insertSet (p : List Component) (s : List (List Component)) :
    List (List Component) :=
  if p ∈ s then s else p :: s

/-- Lexicographic codepoint comparison of character lists; for UTF-8 encoded
strings this coincides with the byte order `Ord` used by `iter().sorted()`. -/
def charsLe : List Char → List Char → Bool
  | [], _ => true
  | _ :: _, [] => false
  | a :: as, b :: bs =>
    if a.val.toNat < b.val.toNat then true
    else if b.val.toNat < a.val.toNat then false
    else charsLe as bs

/-- The string order used for sorting declared path lists. -/
def strLe (a b : String) : Prop := charsLe a.data b.data = true

instance : DecidableRel strLe := fun a b =>
  inferInstanceAs (Decidable (charsLe a.data b.data = true))

/-- Sorting of a Roc string list, as `iter().sorted()` (src/job.rs:41,53). -/
def sortStrings (l : List String) : List String :=
  List.insertionSort strLe l

/-- Error text of src/job.rs:46. -/
def missingHashMsg (s : String) : String :=
  "couldn\x27t find a hash for `" ++ s ++ "`"

/-- Error text of src/job.rs:67-70. -/
def absoluteMsg (s : String) : String :=
  "Got `" ++ s ++
    "` as an output, but absolute paths are not allowed as outputs. Remove the absolute prefix to fix this!"

/-- Error text of src/job.rs:72-75. -/
def parentMsg (s : String) : String :=
  "Got `" ++ s ++
    "` as an output, but relative paths containing `..` are not allowed as inputs. Remove the `..` to fix this!"

/-- The component loop of src/job.rs:65-79: bail on the first absolute or
parent-dir component of output `s`. -/
def checkComponents (s : String) : List Component → Except String Unit
  | [] => Except.ok ()
  | Component.rootDir :: _ => Except.error (absoluteMsg s)
  | Component.parentDir :: _ => Except.error (parentMsg s)
  | Component.curDir :: rest => checkComponents s rest
  | Component.normal _ :: rest => checkComponents s rest

/-- The input loop of src/job.rs:41-50 over the already-sorted input list:
per string, look up the content hash (error if absent), emit its hash token,
and insert the parsed path into the `input_files` set. -/
def processInputs (m : List Component → Option String) :
    List String → Except String (List HashToken × List (List Component))
  | [] => Except.ok ([], [])
  | s :: rest =>
    match m (parsePath s) with
    | none => Except.error (missingHashMsg s)
    | some h =>
      match processInputs m rest with
      | Except.error e => Except.error e
      | Except.ok (toks, files) =>
        Except.ok (HashToken.inputHash h :: toks, insertSet (parsePath s) files)

/-- The output loop of src/job.rs:52-83 over the already-sorted output list,
carrying the set of outputs seen so far: skip duplicates, validate
components, emit the path token, and insert into the set. -/
def processOutputs (seen : List (List Component)) :
    List String → Except String (List HashToken × List (List Component))
  | [] => Except.ok ([], seen)
  | s :: rest =>
    let p := parsePath s
    if p ∈ seen then processOutputs seen rest
    else
      match checkComponents s p with
      | Except.error e => Except.error e
      | Except.ok () =>
        match processOutputs (insertSet p seen) rest with
        | Except.error e => Except.error e
        | Except.ok (toks, outs) => Except.ok (HashToken.output p :: toks, outs)

/-- Model of `Job::from_glue` (src/job.rs:28-91): hash the command, then the
sorted inputs' content hashes, then the sorted deduplicated validated
outputs. -/
def fromGlue (job : GlueJob) (m : List Component → Option String) :
    Except String Job :=
  match processInputs m (sortStrings job.inputFiles) with
  | Except.error e => Except.error e
  | Except.ok (inToks, input_files) =>
    match processOutputs [] (sortStrings job.outputs) with
    | Except.error e => Except.error e
    | Except.ok (outToks, outputs) =>
      Except.ok
        { id := ⟨HashToken.command job.command :: (inToks ++ outToks)⟩
          command := job.command
          input_files := input_files
          outputs := outputs }

instance {ε α : Type} [DecidableEq ε] [DecidableEq α] : DecidableEq (Except ε α) := fun a b =>
  match a, b with
  | Except.error x, Except.error y =>
    match decEq x y with
    | isTrue h => isTrue (by rw [h])
    | isFalse h => isFalse (fun he => h (Except.error.inj he))
  | Except.error _, Except.ok _ => isFalse Except.noConfusion
  | Except.ok _, Except.error _ => isFalse Except.noConfusion
  | Except.ok x, Except.ok y =>
    match decEq x y with
    | isTrue h => isTrue (by rw [h])
    | isFalse h => isFalse (fun he => h (Except.ok.inj he))

/-- A parsed output path passes the component check of src/job.rs:65-79 iff
it has no root and no parent-directory component. -/
def safePath (p : List Component) : Prop :=
  Component.rootDir ∉ p ∧ Component.parentDir ∉ p

instance (p : List Component) : Decidable (safePath p) :=
  inferInstanceAs (Decidable (_ ∧ _))

/-- The error message `from_glue` produces for a rejected output path: the
absolute-path message when the parsed path starts at the root, otherwise the
parent-directory message. -/
def rejectMsg (s : String) : String :=
  if (parsePath s).head? = some Component.rootDir then absoluteMsg s
  else parentMsg s

/-- The `input_files` set built by the input loop, as a function of the
processed list (follows the recursion of `processInputs`). -/
def filesOf : List String → List (List Component)
  | [] => []
  | s :: rest => insertSet (parsePath s) (filesOf rest)

/-- Remove from a string list every entry whose parsed path was already seen,
keeping the first representative of each distinct parsed path. -/
def dedupPaths (seen : List (List Component)) : List String → List String
  | [] => []
  | s :: rest =>
    if parsePath s ∈ seen then dedupPaths seen rest
    else s :: dedupPaths (insertSet (parsePath s) seen) rest

/-! CLI runtime configuration (src/cli.rs). -/

/-- The parsed command line (src/cli.rs:12-24). -/
structure Cli where
  root_dir : String
  print_root_output_paths : Bool
  worker_threads : Option Nat

/-- State of a tokio `runtime::Builder`, as far as the CLI configures it:
the explicitly requested worker-thread count (none if never set) and whether
I/O drivers are enabled. -/
structure RuntimeBuilder where
  threadCount : Option Nat
  driversOn : Bool
deriving DecidableEq

/-- Model of `runtime::Builder::new_multi_thread()`: no explicit thread
count requested yet. -/
def newMultiThread : RuntimeBuilder := ⟨none, false⟩

/-- Model of `builder.enable_io()`. -/
def RuntimeBuilder.enableDrivers (b : RuntimeBuilder) : RuntimeBuilder :=
  { b with driversOn := true }

/-- Model of `builder.worker_threads(count)`. -/
def RuntimeBuilder.setWorkers (b : RuntimeBuilder) (n : Nat) : RuntimeBuilder :=
  { b with threadCount := some n }

/-- Model of `Cli::async_runtime` (src/cli.rs:81-90): build a multi-thread
runtime, enable I/O, and set the worker-thread count only when the
`--worker-threads` option was given. -/
def Cli.async_runtime (cli : Cli) : RuntimeBuilder :=
  let builder := newMultiThread.enableDrivers
  match cli.worker_threads with
  | some count => builder.setWorkers count
  | none => builder

/-- Modelled from the spec: the tokio multi-thread runtime is external to
this repository; per the spec ("the bound is configurable and defaults to
host parallelism") and the option doc in src/cli.rs:20-21 ("If unset, this
defaults to the number of CPU cores on the system"), a builder with no
explicit count spawns one worker thread per host CPU core. -/
def RuntimeBuilder.effectiveWorkers (b : RuntimeBuilder) (hostCpus : Nat) : Nat :=
  b.threadCount.getD hostCpus

/-! Concrete fixtures used by counterexamples and witnesses. -/

/-- A sample command. -/
def cmd0 : R3 := ⟨"gcc", ["x", "y"]⟩

/-- A hash lookup knowing paths `a` and `b`, both with content hash `h`. -/
def mapAB : List Component → Option String := fun p =>
  if p = [Component.normal "a"] then some "h"
  else if p = [Component.normal "b"] then some "h" else none

/-- An empty hash lookup. -/
def mapNone : List Component → Option String := fun _ => none

/-- Job with single input `a` (content hash `h`) and output `out`. -/
def jobInA : GlueJob := ⟨cmd0, ["a"], ["out"]⟩

/-- Job identical to `jobInA` except its input is declared at path `b`,
whose content hash is also `h`. -/
def jobInB : GlueJob := ⟨cmd0, ["b"], ["out"]⟩

/-- Identity of a `fromGlue` result, when it succeeded. -/
def idOf (r : Except String Job) : Option Id :=
  r.toOption.map Job.id

/-- Outputs of a `fromGlue` result, when it succeeded. -/
def outputsOf (r : Except String Job) : Option (List (List Component)) :=
  r.toOption.map Job.outputs

/-! Additional concrete fixtures. -/

def jobEsc : GlueJob := ⟨cmd0, [], ["../escape"]⟩
def jobMissing : GlueJob := ⟨cmd0, ["c"], []⟩
def jobOnce : GlueJob := ⟨cmd0, ["a"], []⟩
def jobOnceValue : Job :=
  ⟨⟨[HashToken.command cmd0, HashToken.inputHash "h"]⟩, cmd0, [[Component.normal "a"]], []⟩
def jobAValue : Job :=
  ⟨⟨[HashToken.command cmd0, HashToken.inputHash "h", HashToken.output [Component.normal "out"]]⟩,
    cmd0, [[Component.normal "a"]], [[Component.normal "out"]]⟩
def jobBValue : Job :=
  ⟨⟨[HashToken.command cmd0, HashToken.inputHash "h", HashToken.output [Component.normal "out"]]⟩,
    cmd0, [[Component.normal "b"]], [[Component.normal "out"]]⟩
def jobBA : GlueJob := ⟨cmd0, ["a", "b"], ["o1", "o2"]⟩
def jobDotDot : GlueJob := ⟨cmd0, [], ["foo/../bar"]⟩
def mapA2 : List Component → Option String := fun p =>
  if p = [Component.normal "a"] then some "h" else none
def cliSet : Cli := ⟨".rbt", false, some 4⟩
def cliNone : Cli := ⟨".rbt", false, none⟩

/-! Helper lemmas. -/

theorem charsLe_refl : ∀ as : List Char, charsLe as as = true
  | [] => rfl
  | a :: as => by
    have ih := charsLe_refl as
    simp [charsLe, ih]

theorem charsLe_cons_iff {a b : Char} {as bs : List Char} :
    charsLe (a :: as) (b :: bs) = true ↔
      a.val.toNat < b.val.toNat ∨
        (a.val.toNat = b.val.toNat ∧ charsLe as bs = true) := by
  by_cases h1 : a.val.toNat < b.val.toNat
  · simp [charsLe, h1]
  · by_cases h2 : b.val.toNat < a.val.toNat
    · simp only [charsLe, if_neg h1, if_pos h2]
      constructor
      · intro h; exact absurd h (by simp)
      · intro h
        rcases h with h | ⟨h, _⟩
        · omega
        · omega
    · have h3 : a.val.toNat = b.val.toNat := by omega
      simp [charsLe, h1, h2, h3]

theorem charsLe_total : ∀ as bs : List Char, charsLe as bs = true ∨ charsLe bs as = true
  | [], _ => Or.inl rfl
  | _ :: _, [] => Or.inr rfl
  | a :: as, b :: bs => by
    rcases Nat.lt_trichotomy a.val.toNat b.val.toNat with h | h | h
    · exact Or.inl (charsLe_cons_iff.mpr (Or.inl h))
    · rcases charsLe_total as bs with ih | ih
      · exact Or.inl (charsLe_cons_iff.mpr (Or.inr ⟨h, ih⟩))
      · exact Or.inr (charsLe_cons_iff.mpr (Or.inr ⟨h.symm, ih⟩))
    · exact Or.inr (charsLe_cons_iff.mpr (Or.inl h))

theorem charsLe_trans : ∀ as bs cs : List Char,
    charsLe as bs = true → charsLe bs cs = true → charsLe as cs = true
  | [], _, _, _, _ => rfl
  | _ :: _, [], _, h, _ => by simp [charsLe] at h
  | _ :: _, _ :: _, [], _, h2 => by simp [charsLe] at h2
  | a :: as, b :: bs, c :: cs, h1, h2 => by
    rcases charsLe_cons_iff.mp h1 with h | ⟨he, hr⟩ <;>
      rcases charsLe_cons_iff.mp h2 with g | ⟨ge, gr⟩ <;>
      apply charsLe_cons_iff.mpr
    · exact Or.inl (by omega)
    · exact Or.inl (by omega)
    · exact Or.inl (by omega)
    · exact Or.inr ⟨by omega, charsLe_trans as bs cs hr gr⟩

theorem charsLe_antisymm : ∀ as bs : List Char,
    charsLe as bs = true → charsLe bs as = true → as = bs
  | [], [], _, _ => rfl
  | [], _ :: _, _, h2 => by simp [charsLe] at h2
  | _ :: _, [], h1, _ => by simp [charsLe] at h1
  | a :: as, b :: bs, h1, h2 => by
    rcases charsLe_cons_iff.mp h1 with h | ⟨he, hr⟩ <;>
      rcases charsLe_cons_iff.mp h2 with g | ⟨ge, gr⟩
    · omega
    · omega
    · omega
    · have : a = b := Char.ext (UInt32.ext (by omega))
      rw [this, charsLe_antisymm as bs hr gr]

instance : IsTotal String strLe :=
  ⟨fun a b => charsLe_total a.data b.data⟩

instance : IsTrans String strLe :=
  ⟨fun a b c => charsLe_trans a.data b.data c.data⟩

instance : IsAntisymm String strLe :=
  ⟨fun a b h1 h2 => by
    cases a; cases b; exact congrArg String.mk (charsLe_antisymm _ _ h1 h2)⟩

theorem strLe_refl (a : String) : strLe a a :=
  charsLe_refl a.data

theorem sortStrings_perm (l : List String) : List.Perm (sortStrings l) l :=
  List.perm_insertionSort strLe l

theorem mem_sortStrings {x : String} {l : List String} :
    x ∈ sortStrings l ↔ x ∈ l :=
  (sortStrings_perm l).mem_iff

theorem sorted_sortStrings (l : List String) : List.Sorted strLe (sortStrings l) :=
  List.sorted_insertionSort strLe l

theorem sortStrings_eq_of_perm {l1 l2 : List String} (h : List.Perm l1 l2) :
    sortStrings l1 = sortStrings l2 :=
  List.eq_of_perm_of_sorted
    ((sortStrings_perm l1).trans (h.trans (sortStrings_perm l2).symm))
    (sorted_sortStrings l1) (sorted_sortStrings l2)

theorem sortStrings_of_sorted {l : List String} (h : List.Sorted strLe l) :
    sortStrings l = l :=
  List.Sorted.insertionSort_eq h

theorem mem_insertSet {q p : List Component} {s : List (List Component)} :
    q ∈ insertSet p s ↔ q = p ∨ q ∈ s := by
  unfold insertSet
  split
  · rename_i h
    constructor
    · exact Or.inr
    · rintro (rfl | hq)
      · exact h
      · exact hq
  · exact List.mem_cons

theorem insertSet_of_mem {p : List Component} {s : List (List Component)}
    (h : p ∈ s) : insertSet p s = s :=
  if_pos h

theorem mem_filesOf_of_mem {x : String} : ∀ {l : List String},
    x ∈ l → parsePath x ∈ filesOf l
  | s :: rest, h => by
    rcases List.mem_cons.mp h with rfl | h
    · exact mem_insertSet.mpr (Or.inl rfl)
    · exact mem_insertSet.mpr (Or.inr (mem_filesOf_of_mem h))

theorem filesOf_orderedInsert {s : String} : ∀ {l : List String}, s ∈ l →
    filesOf (List.orderedInsert strLe s l) = filesOf l
  | b :: l, h => by
    rw [List.orderedInsert]
    split
    · show insertSet (parsePath s) (filesOf (b :: l)) = filesOf (b :: l)
      exact insertSet_of_mem (mem_filesOf_of_mem h)
    · rename_i hsb
      have hs : s ∈ l := by
        rcases List.mem_cons.mp h with rfl | h
        · exact absurd (strLe_refl s) hsb
        · exact h
      show insertSet (parsePath b) (filesOf (List.orderedInsert strLe s l)) =
        insertSet (parsePath b) (filesOf l)
      rw [filesOf_orderedInsert hs]

theorem processInputs_congr {m1 m2 : List Component → Option String} :
    ∀ {l : List String}, (∀ x ∈ l, m1 (parsePath x) = m2 (parsePath x)) →
      processInputs m1 l = processInputs m2 l
  | [], _ => rfl
  | s :: rest, h => by
    have hs : m1 (parsePath s) = m2 (parsePath s) := h s (List.mem_cons_self s rest)
    have hr := processInputs_congr (fun x hx => h x (List.mem_cons_of_mem s hx))
    unfold processInputs
    rw [hs, hr]

theorem processInputs_ok_of_resolvable {m : List Component → Option String} :
    ∀ {l : List String}, (∀ x ∈ l, (m (parsePath x)).isSome) →
      ∃ t f, processInputs m l = Except.ok (t, f) ∧ t.length = l.length ∧ f = filesOf l
  | [], _ => ⟨[], [], rfl, rfl, rfl⟩
  | s :: rest, h => by
    have hs := h s (List.mem_cons_self s rest)
    rcases Option.isSome_iff_exists.mp hs with ⟨hh, hhs⟩
    rcases processInputs_ok_of_resolvable (fun x hx => h x (List.mem_cons_of_mem s hx)) with
      ⟨t, f, ht, hlen, hf⟩
    refine ⟨HashToken.inputHash hh :: t, insertSet (parsePath s) f, ?_, by simp [hlen], ?_⟩
    · unfold processInputs
      rw [hhs, ht]
    · rw [hf]; rfl

theorem processInputs_resolvable_of_ok {m : List Component → Option String} :
    ∀ {l : List String} {t : List HashToken} {f : List (List Component)},
      processInputs m l = Except.ok (t, f) → ∀ x ∈ l, (m (parsePath x)).isSome
  | [], _, _, _ => fun x hx => nomatch hx
  | s :: rest, t, f, h => by
    unfold processInputs at h
    cases hm : m (parsePath s) with
    | none => rw [hm] at h; exact absurd h (by simp)
    | some hh =>
      rw [hm] at h
      cases hr : processInputs m rest with
      | error e => rw [hr] at h; exact absurd h (by simp)
      | ok tf =>
        intro x hx
        rcases List.mem_cons.mp hx with rfl | hx
        · simp [hm]
        · exact processInputs_resolvable_of_ok (by rw [hr]) x hx

theorem processInputs_files_of_ok {m : List Component → Option String}
    {l : List String} {t : List HashToken} {f : List (List Component)}
    (h : processInputs m l = Except.ok (t, f)) : f = filesOf l ∧ t.length = l.length := by
  rcases processInputs_ok_of_resolvable (processInputs_resolvable_of_ok h) with
    ⟨t2, f2, ht2, hlen, hf2⟩
  rw [h] at ht2
  cases ht2
  exact ⟨hf2, hlen⟩

theorem processInputs_error_of_missing {m : List Component → Option String} :
    ∀ {l : List String}, (∃ s ∈ l, m (parsePath s) = none) →
      ∃ s, s ∈ l ∧ m (parsePath s) = none ∧
        processInputs m l = Except.error (missingHashMsg s)
  | s0 :: rest, h => by
    cases hm : m (parsePath s0) with
    | none =>
      refine ⟨s0, List.mem_cons_self s0 rest, hm, ?_⟩
      unfold processInputs
      rw [hm]
    | some hh =>
      rcases h with ⟨s, hs, hnone⟩
      have hsr : s ∈ rest := by
        rcases List.mem_cons.mp hs with rfl | h2
        · rw [hm] at hnone; exact absurd hnone (by simp)
        · exact h2
      rcases processInputs_error_of_missing ⟨s, hsr, hnone⟩ with ⟨s1, hs1, hn1, he1⟩
      refine ⟨s1, List.mem_cons_of_mem s0 hs1, hn1, ?_⟩
      unfold processInputs
      rw [hm, he1]

theorem processInputs_token_mem {m : List Component → Option String} :
    ∀ {l : List String} {t : List HashToken} {f : List (List Component)},
      processInputs m l = Except.ok (t, f) →
      ∀ s ∈ l, ∃ h, m (parsePath s) = some h ∧ HashToken.inputHash h ∈ t
  | [], _, _, _ => fun s hs => nomatch hs
  | s0 :: rest, t, f, h => by
    unfold processInputs at h
    cases hm : m (parsePath s0) with
    | none => rw [hm] at h; exact absurd h (by simp)
    | some hh =>
      rw [hm] at h
      cases hr : processInputs m rest with
      | error e => rw [hr] at h; exact absurd h (by simp)
      | ok tf =>
        rw [hr] at h
        cases h
        intro s hs
        rcases List.mem_cons.mp hs with rfl | hs
        · exact ⟨hh, hm, List.mem_cons_self _ _⟩
        · rcases @processInputs_token_mem m rest tf.1 tf.2 (by rw [hr]) s hs with
            ⟨hv, hmv, hmem⟩
          exact ⟨hv, hmv, List.mem_cons_of_mem _ hmem⟩

theorem processInputs_toks_of_map_eq {m1 m2 : List Component → Option String} :
    ∀ {l1 l2 : List String} {t1 t2 : List HashToken}
      {f1 f2 : List (List Component)},
      l1.map (fun s => m1 (parsePath s)) = l2.map (fun s => m2 (parsePath s)) →
      processInputs m1 l1 = Except.ok (t1, f1) →
      processInputs m2 l2 = Except.ok (t2, f2) → t1 = t2
  | [], [], t1, t2, f1, f2, _, h1, h2 => by
    cases h1; cases h2; rfl
  | [], _ :: _, _, _, _, _, hm, _, _ => by simp at hm
  | _ :: _, [], _, _, _, _, hm, _, _ => by simp at hm
  | a :: l1, b :: l2, t1, t2, f1, f2, hm, h1, h2 => by
    simp only [List.map_cons, List.cons.injEq] at hm
    unfold processInputs at h1 h2
    cases hma : m1 (parsePath a) with
    | none => rw [hma] at h1; exact absurd h1 (by simp)
    | some ha =>
      rw [hma] at h1
      have hmb : m2 (parsePath b) = some ha := by rw [← hm.1, hma]
      rw [hmb] at h2
      cases hr1 : processInputs m1 l1 with
      | error e => rw [hr1] at h1; exact absurd h1 (by simp)
      | ok tf1 =>
        cases hr2 : processInputs m2 l2 with
        | error e => rw [hr2] at h2; exact absurd h2 (by simp)
        | ok tf2 =>
          rw [hr1] at h1; rw [hr2] at h2
          cases h1; cases h2
          have := @processInputs_toks_of_map_eq m1 m2 l1 l2 tf1.1 tf2.1 tf1.2 tf2.2
            hm.2 (by rw [hr1]) (by rw [hr2])
          rw [this]

theorem checkComponents_ok_of_safe {s : String} : ∀ {p : List Component},
    safePath p → checkComponents s p = Except.ok ()
  | [], _ => rfl
  | Component.rootDir :: _, h => absurd (List.mem_cons_self _ _) h.1
  | Component.parentDir :: _, h => absurd (List.mem_cons_self _ _) h.2
  | Component.curDir :: rest, h => by
    show checkComponents s rest = Except.ok ()
    exact checkComponents_ok_of_safe
      ⟨fun hr => h.1 (List.mem_cons_of_mem _ hr), fun hp => h.2 (List.mem_cons_of_mem _ hp)⟩
  | Component.normal n :: rest, h => by
    show checkComponents s rest = Except.ok ()
    exact checkComponents_ok_of_safe
      ⟨fun hr => h.1 (List.mem_cons_of_mem _ hr), fun hp => h.2 (List.mem_cons_of_mem _ hp)⟩

theorem checkComponents_abs {s : String} {p : List Component}
    (h : p.head? = some Component.rootDir) :
    checkComponents s p = Except.error (absoluteMsg s) := by
  cases p with
  | nil => simp at h
  | cons c rest =>
    simp only [List.head?_cons, Option.some.injEq] at h
    subst h
    rfl

theorem checkComponents_parent {s : String} : ∀ {p : List Component},
    Component.rootDir ∉ p → Component.parentDir ∈ p →
    checkComponents s p = Except.error (parentMsg s)
  | Component.rootDir :: _, hr, _ => absurd (List.mem_cons_self _ _) hr
  | Component.parentDir :: _, _, _ => rfl
  | Component.curDir :: rest, hr, hp => by
    have hp2 : Component.parentDir ∈ rest := by
      rcases List.mem_cons.mp hp with h | h
      · exact absurd h.symm (by simp)
      · exact h
    show checkComponents s rest = Except.error (parentMsg s)
    exact checkComponents_parent (fun h => hr (List.mem_cons_of_mem _ h)) hp2
  | Component.normal n :: rest, hr, hp => by
    have hp2 : Component.parentDir ∈ rest := by
      rcases List.mem_cons.mp hp with h | h
      · exact absurd h.symm (by simp)
      · exact h
    show checkComponents s rest = Except.error (parentMsg s)
    exact checkComponents_parent (fun h => hr (List.mem_cons_of_mem _ h)) hp2

theorem parsePath_rootDir_head {s : String}
    (h : Component.rootDir ∈ parsePath s) :
    (parsePath s).head? = some Component.rootDir := by
  have hmap : ∀ (parts : List String),
      Component.rootDir ∉ parts.map
        (fun p => if p == ".." then Component.parentDir else Component.normal p) := by
    intro parts hmem
    rcases List.mem_map.mp hmem with ⟨p, _, hf⟩
    revert hf
    split <;> simp
  revert h
  unfold parsePath
  split
  · intro _; rfl
  · split
    · intro h
      rcases List.mem_cons.mp h with h | h
      · exact absurd h.symm (by simp)
      · exact absurd h (hmap _)
    · intro h
      exact absurd h (hmap _)

theorem checkComponents_reject {s : String}
    (h : ¬ safePath (parsePath s)) :
    checkComponents s (parsePath s) = Except.error (rejectMsg s) := by
  unfold rejectMsg
  by_cases hh : (parsePath s).head? = some Component.rootDir
  · rw [if_pos hh]
    exact checkComponents_abs hh
  · rw [if_neg hh]
    have hr : Component.rootDir ∉ parsePath s := fun hmem =>
      hh (parsePath_rootDir_head hmem)
    have hp : Component.parentDir ∈ parsePath s := by
      unfold safePath at h
      by_contra hnp
      exact h ⟨hr, hnp⟩
    exact checkComponents_parent hr hp

theorem processOutputs_error_of_reject :
    ∀ (l : List String) (seen : List (List Component)),
      (∀ q ∈ seen, safePath q) → (∃ s ∈ l, ¬ safePath (parsePath s)) →
      ∃ s, s ∈ l ∧ ¬ safePath (parsePath s) ∧
        processOutputs seen l = Except.error (rejectMsg s)
  | s0 :: rest, seen, hseen, hex => by
    by_cases hp : parsePath s0 ∈ seen
    · have hsafe0 : safePath (parsePath s0) := hseen _ hp
      have hex2 : ∃ s ∈ rest, ¬ safePath (parsePath s) := by
        rcases hex with ⟨s, hs, hn⟩
        rcases List.mem_cons.mp hs with rfl | hs
        · exact absurd hsafe0 hn
        · exact ⟨s, hs, hn⟩
      rcases processOutputs_error_of_reject rest seen hseen hex2 with ⟨s, hs, hn, he⟩
      refine ⟨s, List.mem_cons_of_mem _ hs, hn, ?_⟩
      simp only [processOutputs, if_pos hp]
      exact he
    · by_cases hsafe0 : safePath (parsePath s0)
      · have hex2 : ∃ s ∈ rest, ¬ safePath (parsePath s) := by
          rcases hex with ⟨s, hs, hn⟩
          rcases List.mem_cons.mp hs with rfl | hs
          · exact absurd hsafe0 hn
          · exact ⟨s, hs, hn⟩
        have hseen2 : ∀ q ∈ insertSet (parsePath s0) seen, safePath q := by
          intro q hq
          rcases mem_insertSet.mp hq with rfl | hq
          · exact hsafe0
          · exact hseen q hq
        rcases processOutputs_error_of_reject rest _ hseen2 hex2 with ⟨s, hs, hn, he⟩
        refine ⟨s, List.mem_cons_of_mem _ hs, hn, ?_⟩
        simp only [processOutputs, if_neg hp, checkComponents_ok_of_safe hsafe0]
        rw [he]
      · refine ⟨s0, List.mem_cons_self _ _, hsafe0, ?_⟩
        simp only [processOutputs, if_neg hp, checkComponents_reject hsafe0]

theorem processOutputs_dedup :
    ∀ (l : List String) (seen : List (List Component)),
      processOutputs seen (dedupPaths seen l) = processOutputs seen l
  | [], seen => rfl
  | s :: rest, seen => by
    by_cases hp : parsePath s ∈ seen
    · simp only [dedupPaths, if_pos hp]
      rw [processOutputs_dedup rest seen]
      simp only [processOutputs, if_pos hp]
    · simp only [dedupPaths, if_neg hp]
      simp only [processOutputs, if_neg hp]
      cases hc : checkComponents s (parsePath s) with
      | error e => rfl
      | ok u =>
        cases u
        rw [processOutputs_dedup rest (insertSet (parsePath s) seen)]

theorem dedupPaths_sublist :
    ∀ (l : List String) (seen : List (List Component)),
      List.Sublist (dedupPaths seen l) l
  | [], _ => List.Sublist.refl []
  | s :: rest, seen => by
    by_cases hp : parsePath s ∈ seen
    · simp only [dedupPaths, if_pos hp]
      exact List.Sublist.cons s (dedupPaths_sublist rest seen)
    · simp only [dedupPaths, if_neg hp]
      exact List.Sublist.cons₂ s (dedupPaths_sublist rest _)

theorem fromGlue_eq_ok_iff {job : GlueJob} {m : List Component → Option String}
    {j : Job} :
    fromGlue job m = Except.ok j ↔
      ∃ tI fI tO fO,
        processInputs m (sortStrings job.inputFiles) = Except.ok (tI, fI) ∧
        processOutputs [] (sortStrings job.outputs) = Except.ok (tO, fO) ∧
        j = ⟨⟨HashToken.command job.command :: (tI ++ tO)⟩, job.command, fI, fO⟩ := by
  unfold fromGlue
  cases hI : processInputs m (sortStrings job.inputFiles) with
  | error e => simp
  | ok pI =>
    cases hO : processOutputs [] (sortStrings job.outputs) with
    | error e => simp
    | ok pO =>
      constructor
      · intro h
        cases h
        exact ⟨pI.1, pI.2, pO.1, pO.2, rfl, rfl, rfl⟩
      · rintro ⟨tI, fI, tO, fO, h1, h2, rfl⟩
        cases h1
        cases h2
        rfl

theorem fromGlue_error_inputs {job : GlueJob} {m : List Component → Option String}
    {e : String} (h : processInputs m (sortStrings job.inputFiles) = Except.error e) :
    fromGlue job m = Except.error e := by
  unfold fromGlue
  rw [h]

theorem fromGlue_error_outputs {job : GlueJob} {m : List Component → Option String}
    {tI : List HashToken} {fI : List (List Component)} {e : String}
    (hI : processInputs m (sortStrings job.inputFiles) = Except.ok (tI, fI))
    (hO : processOutputs [] (sortStrings job.outputs) = Except.error e) :
    fromGlue job m = Except.error e := by
  unfold fromGlue
  rw [hI, hO]

theorem absoluteMsg_ne_parentMsg (s : String) : absoluteMsg s ≠ parentMsg s := by
  intro h
  unfold absoluteMsg parentMsg at h
  have hd := congrArg String.data h
  rw [String.data_append, String.data_append, String.data_append, String.data_append] at hd
  rw [List.append_assoc, List.append_assoc] at hd
  have h2 := List.append_cancel_left (List.append_cancel_left hd)
  have h3 := congrArg String.mk h2
  simp at h3

theorem rejectMsg_parts (s : String) :
    (∃ l r, rejectMsg s = l ++ s ++ r) := by
  unfold rejectMsg
  split
  · exact ⟨"Got `",
      "` as an output, but absolute paths are not allowed as outputs. Remove the absolute prefix to fix this!",
      rfl⟩
  · exact ⟨"Got `",
      "` as an output, but relative paths containing `..` are not allowed as inputs. Remove the `..` to fix this!",
      rfl⟩

/-! Claim theorems. -/

/-- C1: fingerprinting is deterministic. `fromGlue` is a pure function of the
job description and the resolved content hashes: any two hash lookups that
agree on the declared input paths give identical results (identity included),
independent of anything outside the description and the hashes. -/
theorem fromGlue_deterministic (job : GlueJob)
    (m1 m2 : List Component → Option String)
    (h : ∀ s ∈ job.inputFiles, m1 (parsePath s) = m2 (parsePath s)) :
    fromGlue job m1 = fromGlue job m2 := by
  unfold fromGlue
  rw [processInputs_congr (fun x hx => h x (mem_sortStrings.mp hx))]

theorem fromGlue_deterministic_witness :
    (∀ s ∈ jobOnce.inputFiles, mapAB (parsePath s) = mapA2 (parsePath s)) ∧
    fromGlue jobOnce mapAB = fromGlue jobOnce mapA2 := by
  have hA : ∀ s ∈ jobOnce.inputFiles, mapAB (parsePath s) = mapA2 (parsePath s) := by
    intro s hs
    have hs2 : s = "a" := by simpa [jobOnce] using hs
    subst hs2
    decide
  exact ⟨hA, fromGlue_deterministic jobOnce mapAB mapA2 hA⟩

/-- C2 counterexample: the input loop hashes only the looked-up content-hash
string (src/job.rs:45), never the path, so two descriptions identical except
that their single input file is declared under a different path with the same
content hash get the same identity, refuting the claim that both path and
content hash are folded in. -/
theorem input_path_not_hashed_counterexample :
    jobInA.command = jobInB.command ∧ jobInA.outputs = jobInB.outputs ∧
    jobInA.inputFiles = ["a"] ∧ jobInB.inputFiles = ["b"] ∧
    mapAB (parsePath "a") = some "h" ∧ mapAB (parsePath "b") = some "h" ∧
    (idOf (fromGlue jobInA mapAB)).isSome ∧
    idOf (fromGlue jobInA mapAB) = idOf (fromGlue jobInB mapAB) := by decide

/-- C2 amended: the identity folds in the content hashes of the inputs taken
in sorted-path order, not the paths themselves; whenever two descriptions
share command, outputs, and the sorted sequence of resolved hashes, their
identities coincide (so a rename can matter only by permuting that
sequence). -/
theorem id_from_hash_sequence (j1 j2 : GlueJob)
    (m1 m2 : List Component → Option String) (a b : Job)
    (hc : j1.command = j2.command) (ho : j1.outputs = j2.outputs)
    (hm : (sortStrings j1.inputFiles).map (fun s => m1 (parsePath s)) =
      (sortStrings j2.inputFiles).map (fun s => m2 (parsePath s)))
    (h1 : fromGlue j1 m1 = Except.ok a) (h2 : fromGlue j2 m2 = Except.ok b) :
    a.id = b.id := by
  rcases fromGlue_eq_ok_iff.mp h1 with ⟨tI1, fI1, tO1, fO1, hi1, ho1, rfl⟩
  rcases fromGlue_eq_ok_iff.mp h2 with ⟨tI2, fI2, tO2, fO2, hi2, ho2, rfl⟩
  have ht : tI1 = tI2 := processInputs_toks_of_map_eq hm hi1 hi2
  rw [ho] at ho1
  rw [ho1] at ho2
  cases ho2
  show Id.mk _ = Id.mk _
  rw [hc, ht]

theorem id_from_hash_sequence_witness :
    jobInA.command = jobInB.command ∧ jobInA.outputs = jobInB.outputs ∧
    ((sortStrings jobInA.inputFiles).map (fun s => mapAB (parsePath s)) =
      (sortStrings jobInB.inputFiles).map (fun s => mapAB (parsePath s))) ∧
    fromGlue jobInA mapAB = Except.ok jobAValue ∧
    fromGlue jobInB mapAB = Except.ok jobBValue ∧
    jobAValue.id = jobBValue.id :=
  ⟨rfl, rfl, by decide, by decide, by decide,
    id_from_hash_sequence jobInA jobInB mapAB mapAB jobAValue jobBValue rfl rfl
      (by decide) (by decide) (by decide)⟩

/-- C3: order-independence of declared file lists. Permuting the inputFiles
list and/or the outputs list of a description (hash lookup held fixed) leaves
the whole `fromGlue` result, identity included, unchanged. -/
theorem fromGlue_order_insensitive (job : GlueJob)
    (ins outs : List String) (m : List Component → Option String)
    (hi : List.Perm ins job.inputFiles) (ho : List.Perm outs job.outputs) :
    fromGlue ⟨job.command, ins, outs⟩ m = fromGlue job m := by
  unfold fromGlue
  dsimp only
  rw [sortStrings_eq_of_perm hi, sortStrings_eq_of_perm ho]

theorem fromGlue_order_insensitive_witness :
    List.Perm ["b", "a"] jobBA.inputFiles ∧ List.Perm ["o2", "o1"] jobBA.outputs ∧
    fromGlue ⟨jobBA.command, ["b", "a"], ["o2", "o1"]⟩ mapAB = fromGlue jobBA mapAB := by
  have h1 : List.Perm ["b", "a"] jobBA.inputFiles := by decide
  have h2 : List.Perm ["o2", "o1"] jobBA.outputs := by decide
  exact ⟨h1, h2, fromGlue_order_insensitive jobBA ["b", "a"] ["o2", "o1"] mapAB h1 h2⟩

/-- C4: order-sensitivity of the command. For a concrete description,
swapping the order of the two command arguments (everything else held fixed)
changes the identity produced by `fromGlue`. -/
theorem command_arg_order_sensitive :
    (idOf (fromGlue ⟨⟨"gcc", ["x", "y"]⟩, [], []⟩ mapNone)).isSome ∧
    (idOf (fromGlue ⟨⟨"gcc", ["y", "x"]⟩, [], []⟩ mapNone)).isSome ∧
    idOf (fromGlue ⟨⟨"gcc", ["x", "y"]⟩, [], []⟩ mapNone) ≠
      idOf (fromGlue ⟨⟨"gcc", ["y", "x"]⟩, [], []⟩ mapNone) := by decide

/-- C5: unsafe output paths are rejected. A description declaring an output
whose parsed path is absolute or contains a parent-directory component makes
`fromGlue` return an error (no job is constructed); when every input hash
resolves, the error message embeds the offending path and is the
absolute-path message exactly when the path is absolute, the distinct
parent-directory message otherwise. -/
theorem output_path_rejected (job : GlueJob) (m : List Component → Option String)
    (hout : ∃ s ∈ job.outputs, ¬ safePath (parsePath s)) :
    (∃ e, fromGlue job m = Except.error e) ∧
    ((∀ x ∈ job.inputFiles, (m (parsePath x)).isSome) →
      ∃ s, s ∈ job.outputs ∧ ¬ safePath (parsePath s) ∧
        fromGlue job m = Except.error (rejectMsg s) ∧
        (∃ l r, rejectMsg s = l ++ s ++ r) ∧
        ((parsePath s).head? = some Component.rootDir → rejectMsg s = absoluteMsg s) ∧
        ((parsePath s).head? ≠ some Component.rootDir → rejectMsg s = parentMsg s) ∧
        absoluteMsg s ≠ parentMsg s) := by
  have hdet : (∀ x ∈ job.inputFiles, (m (parsePath x)).isSome) →
      ∃ s, s ∈ job.outputs ∧ ¬ safePath (parsePath s) ∧
        fromGlue job m = Except.error (rejectMsg s) ∧
        (∃ l r, rejectMsg s = l ++ s ++ r) ∧
        ((parsePath s).head? = some Component.rootDir → rejectMsg s = absoluteMsg s) ∧
        ((parsePath s).head? ≠ some Component.rootDir → rejectMsg s = parentMsg s) ∧
        absoluteMsg s ≠ parentMsg s := by
    intro hin
    rcases processInputs_ok_of_resolvable
        (fun x hx => hin x (mem_sortStrings.mp hx)) with ⟨tI, fI, hI, _, _⟩
    have hex : ∃ s ∈ sortStrings job.outputs, ¬ safePath (parsePath s) := by
      rcases hout with ⟨s, hs, hn⟩
      exact ⟨s, mem_sortStrings.mpr hs, hn⟩
    rcases processOutputs_error_of_reject (sortStrings job.outputs) []
        (fun q hq => nomatch hq) hex with ⟨s, hs, hn, he⟩
    refine ⟨s, mem_sortStrings.mp hs, hn, fromGlue_error_outputs hI he,
      rejectMsg_parts s, ?_, ?_, absoluteMsg_ne_parentMsg s⟩
    · intro hh
      unfold rejectMsg
      rw [if_pos hh]
    · intro hh
      unfold rejectMsg
      rw [if_neg hh]
  constructor
  · by_cases hin : ∀ x ∈ job.inputFiles, (m (parsePath x)).isSome
    · rcases hdet hin with ⟨s, _, _, he, _⟩
      exact ⟨rejectMsg s, he⟩
    · push_neg at hin
      rcases hin with ⟨x, hx, hnone⟩
      have hxn : m (parsePath x) = none := Option.not_isSome_iff_eq_none.mp hnone
      rcases processInputs_error_of_missing ⟨x, mem_sortStrings.mpr hx, hxn⟩ with
        ⟨s1, _, _, he1⟩
      exact ⟨missingHashMsg s1, fromGlue_error_inputs he1⟩
  · exact hdet

theorem output_path_rejected_witness :
    (∃ s ∈ jobEsc.outputs, ¬ safePath (parsePath s)) ∧
    (∃ e, fromGlue jobEsc mapNone = Except.error e) ∧
    (∃ s, s ∈ jobEsc.outputs ∧ ¬ safePath (parsePath s) ∧
      fromGlue jobEsc mapNone = Except.error (rejectMsg s) ∧
      (∃ l r, rejectMsg s = l ++ s ++ r) ∧
      ((parsePath s).head? = some Component.rootDir → rejectMsg s = absoluteMsg s) ∧
      ((parsePath s).head? ≠ some Component.rootDir → rejectMsg s = parentMsg s) ∧
      absoluteMsg s ≠ parentMsg s) := by
  have hout : ∃ s ∈ jobEsc.outputs, ¬ safePath (parsePath s) :=
    ⟨"../escape", by decide, by decide⟩
  have h := output_path_rejected jobEsc mapNone hout
  exact ⟨hout, h.1, h.2 (fun x hx => nomatch hx)⟩

/-- C6: missing input hashes are never skipped. If some declared input path
is absent from the hash lookup, `fromGlue` fails with the missing-hash error
naming such a path; and whenever `fromGlue` succeeds, every declared input
contributes its content-hash token to the identity transcript. -/
theorem missing_input_hash_behavior (job : GlueJob)
    (m : List Component → Option String) :
    ((∃ s ∈ job.inputFiles, m (parsePath s) = none) →
      ∃ s, s ∈ job.inputFiles ∧ m (parsePath s) = none ∧
        fromGlue job m = Except.error (missingHashMsg s) ∧
        ∃ l r, missingHashMsg s = l ++ s ++ r) ∧
    (∀ j, fromGlue job m = Except.ok j →
      ∀ s ∈ job.inputFiles, ∃ h, m (parsePath s) = some h ∧
        HashToken.inputHash h ∈ j.id.tokens) := by
  constructor
  · rintro ⟨s, hs, hn⟩
    rcases processInputs_error_of_missing ⟨s, mem_sortStrings.mpr hs, hn⟩ with
      ⟨s1, hs1, hn1, he⟩
    exact ⟨s1, mem_sortStrings.mp hs1, hn1, fromGlue_error_inputs he,
      "couldn\x27t find a hash for `", "`", rfl⟩
  · intro j hj s hs
    rcases fromGlue_eq_ok_iff.mp hj with ⟨tI, fI, tO, fO, hI, hO, rfl⟩
    rcases processInputs_token_mem hI s (mem_sortStrings.mpr hs) with ⟨hv, hmv, hmem⟩
    refine ⟨hv, hmv, ?_⟩
    show HashToken.inputHash hv ∈ HashToken.command job.command :: (tI ++ tO)
    exact List.mem_cons_of_mem _ (List.mem_append_left _ hmem)

theorem missing_input_hash_behavior_witness :
    (∃ s, s ∈ jobMissing.inputFiles ∧ mapAB (parsePath s) = none ∧
      fromGlue jobMissing mapAB = Except.error (missingHashMsg s) ∧
      ∃ l r, missingHashMsg s = l ++ s ++ r) ∧
    (∃ h, mapAB (parsePath "a") = some h ∧ HashToken.inputHash h ∈ jobOnceValue.id.tokens) :=
  ⟨(missing_input_hash_behavior jobMissing mapAB).1 ⟨"c", by decide, by decide⟩,
    (missing_input_hash_behavior jobOnce mapAB).2 jobOnceValue (by decide) "a" (by decide)⟩

/-- C7: duplicate output declarations are idempotent. `fromGlue` on any
description equals `fromGlue` on the same description with its output list
replaced by the deduplicated sorted list (first representative of each
distinct parsed path kept), so repeated output paths change neither success,
nor the identity, nor the outputs set, and each distinct output path is
hashed exactly once. -/
theorem duplicate_outputs_idempotent (job : GlueJob)
    (m : List Component → Option String) :
    fromGlue job m =
      fromGlue ⟨job.command, job.inputFiles, dedupPaths [] (sortStrings job.outputs)⟩ m := by
  unfold fromGlue
  dsimp only
  rw [sortStrings_of_sorted
    (List.Pairwise.sublist (dedupPaths_sublist (sortStrings job.outputs) [])
      (sorted_sortStrings job.outputs))]
  rw [processOutputs_dedup]

/-- C8 counterexample: listing input `a` twice gives a different identity
than listing it once (both calls succeed), refuting the claim that duplicate
inputFiles entries leave the identity unchanged: the input loop
(src/job.rs:41-50) hashes one content-hash token per occurrence. -/
theorem duplicate_input_counterexample :
    (idOf (fromGlue ⟨cmd0, ["a", "a"], []⟩ mapAB)).isSome ∧
    (idOf (fromGlue ⟨cmd0, ["a"], []⟩ mapAB)).isSome ∧
    idOf (fromGlue ⟨cmd0, ["a", "a"], []⟩ mapAB) ≠
      idOf (fromGlue ⟨cmd0, ["a"], []⟩ mapAB) := by decide

/-- C8 amended: duplicate input declarations are deduplicated in the stored
`input_files` set but not for hashing; adding an extra occurrence of an
already-declared input path yields a job with the same command, input set and
outputs but a different identity (one more content-hash token). -/
theorem duplicate_input_changes_id (job : GlueJob)
    (m : List Component → Option String) (s : String) (j : Job)
    (hs : s ∈ job.inputFiles) (hj : fromGlue job m = Except.ok j) :
    ∃ jd, fromGlue ⟨job.command, s :: job.inputFiles, job.outputs⟩ m = Except.ok jd ∧
      jd.id ≠ j.id ∧ jd.command = j.command ∧
      jd.input_files = j.input_files ∧ jd.outputs = j.outputs := by
  rcases fromGlue_eq_ok_iff.mp hj with ⟨tI, fI, tO, fO, hI, hO, rfl⟩
  have hall := processInputs_resolvable_of_ok hI
  have hres : ∀ x ∈ sortStrings (s :: job.inputFiles), (m (parsePath x)).isSome := by
    intro x hx
    rcases List.mem_cons.mp (mem_sortStrings.mp hx) with rfl | hx3
    · exact hall x (mem_sortStrings.mpr hs)
    · exact hall x (mem_sortStrings.mpr hx3)
  rcases processInputs_ok_of_resolvable hres with ⟨tI2, fI2, hI2, hlen2, hfI2⟩
  rcases processInputs_files_of_ok hI with ⟨hfI, hlenI⟩
  have hsortlen : (sortStrings (s :: job.inputFiles)).length =
      (sortStrings job.inputFiles).length + 1 := by
    rw [(sortStrings_perm (s :: job.inputFiles)).length_eq,
      (sortStrings_perm job.inputFiles).length_eq]
    rfl
  have hfiles : fI2 = fI := by
    rw [hfI2, hfI]
    show filesOf (List.orderedInsert strLe s (sortStrings job.inputFiles)) =
      filesOf (sortStrings job.inputFiles)
    exact filesOf_orderedInsert (mem_sortStrings.mpr hs)
  refine ⟨⟨⟨HashToken.command job.command :: (tI2 ++ tO)⟩, job.command, fI2, fO⟩,
    ?_, ?_, rfl, hfiles, rfl⟩
  · apply fromGlue_eq_ok_iff.mpr
    exact ⟨tI2, fI2, tO, fO, hI2, hO, rfl⟩
  · intro h
    have hlen := congrArg (fun i => i.tokens.length) h
    simp only [List.length_cons, List.length_append] at hlen
    omega

theorem duplicate_input_changes_id_witness :
    "a" ∈ jobOnce.inputFiles ∧ fromGlue jobOnce mapAB = Except.ok jobOnceValue ∧
    (∃ jd, fromGlue ⟨jobOnce.command, "a" :: jobOnce.inputFiles, jobOnce.outputs⟩ mapAB =
        Except.ok jd ∧
      jd.id ≠ jobOnceValue.id ∧ jd.command = jobOnceValue.command ∧
      jd.input_files = jobOnceValue.input_files ∧ jd.outputs = jobOnceValue.outputs) :=
  ⟨by decide, by decide,
    duplicate_input_changes_id jobOnce mapAB "a" jobOnceValue (by decide) (by decide)⟩

/-- C9: the concurrency bound is configurable with a host-parallelism
default. When `--worker-threads` is given, the runtime builder carries
exactly that worker count; when absent, the count is left unset and the
effective worker count equals the host CPU count. -/
theorem worker_threads_config (cli : Cli) (hostCpus : Nat) :
    (∀ n, cli.worker_threads = some n →
      (cli.async_runtime).effectiveWorkers hostCpus = n) ∧
    (cli.worker_threads = none →
      (cli.async_runtime).effectiveWorkers hostCpus = hostCpus) := by
  constructor
  · intro n hn
    unfold Cli.async_runtime
    rw [hn]
    rfl
  · intro hn
    unfold Cli.async_runtime
    rw [hn]
    rfl

theorem worker_threads_config_witness :
    cliSet.worker_threads = some 4 ∧
    (cliSet.async_runtime).effectiveWorkers 8 = 4 ∧
    cliNone.worker_threads = none ∧
    (cliNone.async_runtime).effectiveWorkers 8 = 8 :=
  ⟨rfl, (worker_threads_config cliSet 8).1 4 rfl, rfl,
    (worker_threads_config cliNone 8).2 rfl⟩

/-- C10: output-path rejection is purely syntactic. Any output whose parsed
path contains a parent-directory component is rejected even when it resolves
inside the workspace (concretely, `foo/../bar`), while `.` components are
kept verbatim, so outputs `foo` and `./foo` are distinct: both succeed with
different identities and different outputs sets. -/
theorem output_check_syntactic :
    (∀ (job : GlueJob) (m : List Component → Option String) (s : String),
        (∀ x ∈ job.inputFiles, (m (parsePath x)).isSome) →
        s ∈ job.outputs → Component.parentDir ∈ parsePath s →
        ∃ e, fromGlue job m = Except.error e) ∧
    Component.parentDir ∈ parsePath "foo/../bar" ∧
    fromGlue jobDotDot mapNone = Except.error (parentMsg "foo/../bar") ∧
    (idOf (fromGlue ⟨cmd0, [], ["foo"]⟩ mapNone)).isSome ∧
    (idOf (fromGlue ⟨cmd0, [], ["./foo"]⟩ mapNone)).isSome ∧
    idOf (fromGlue ⟨cmd0, [], ["foo"]⟩ mapNone) ≠
      idOf (fromGlue ⟨cmd0, [], ["./foo"]⟩ mapNone) ∧
    outputsOf (fromGlue ⟨cmd0, [], ["foo"]⟩ mapNone) ≠
      outputsOf (fromGlue ⟨cmd0, [], ["./foo"]⟩ mapNone) := by
  refine ⟨?_, by decide, by decide, by decide, by decide, by decide, by decide⟩
  intro job m s hin hs hp
  have hns : ¬ safePath (parsePath s) := fun hsafe => hsafe.2 hp
  rcases processInputs_ok_of_resolvable
      (fun x hx => hin x (mem_sortStrings.mp hx)) with ⟨tI, fI, hI, _, _⟩
  rcases processOutputs_error_of_reject (sortStrings job.outputs) []
      (fun q hq => nomatch hq) ⟨s, mem_sortStrings.mpr hs, hns⟩ with ⟨s1, _, _, he⟩
  exact ⟨rejectMsg s1, fromGlue_error_outputs hI he⟩

theorem output_check_syntactic_witness :
    (∀ x ∈ jobDotDot.inputFiles, (mapNone (parsePath x)).isSome) ∧
    "foo/../bar" ∈ jobDotDot.outputs ∧
    Component.parentDir ∈ parsePath "foo/../bar" ∧
    (∃ e, fromGlue jobDotDot mapNone = Except.error e) :=
  by
  refine ⟨(fun x hx => nomatch hx), by decide, by decide, ?_⟩
  exact output_check_syntactic.1 jobDotDot mapNone "foo/../bar"
    (fun x hx => nomatch hx) (by decide) (by decide)

end Rbt
